import Mathlib

/-!
# Verification of the Resume-Intelligence-Engine evaluation core

This file gives a shallow embedding, in Lean 4, of the evaluation
orchestration layer of the Resume-Intelligence-Engine repository
(`ranking_logic.py`, `llm_backend.py`, `pdf_parser.py`) and proves the
specified properties of that code.

Modelling conventions:
* Python strings are modelled as `List Char`.
* Python numbers (the ints and floats produced by `json.loads`) are
  modelled as `Rat`; exotic IEEE values (`NaN`, `Infinity`) are outside
  the model.
* JSON values are modelled by the inductive type `JVal`.  Python `dict`
  objects are association lists; as in CPython, a lookup returns the
  value of the *last* binding of a key (`json` object duplicate keys
  resolve to the last occurrence).
* Fallible Python code (functions that may raise) returns `Except` with
  the exception message.
* `json.loads` is modelled by a fuel-based recursive-descent parser
  (`parseVal`) over the JSON grammar (without `\\u`-style string escapes
  and exponent number forms, which none of the properties exercise), and
  `json.dumps` by the canonical serializer `serV`.
-/

/-- Convert a Lean string literal to the `List Char` representation used
throughout this file. -/
def strL (s : String) : List Char := s.data

/-- The backtick character (used by the Markdown fence checks). -/
def btick : Char := Char.ofNat 96

/-- The double-quote character. -/
def dquote : Char := '"'

/-- The whitespace characters stripped by Python's `str.strip()` and
skipped by `json.loads` (the common ASCII ones). -/
def isWsChar (c : Char) : Bool := c == ' ' || c == '\t' || c == '\n' || c == '\r'

/-- Python `str.strip()`: remove leading and trailing whitespace. -/
def pyStrip (s : List Char) : List Char :=
  ((s.dropWhile isWsChar).reverse.dropWhile isWsChar).reverse

/-- Index of the first occurrence of `c` (Python `str.find`, with `none`
for `-1`). -/
def firstIdxOf (c : Char) (s : List Char) : Option Nat :=
  s.findIdx? (fun x => x == c)

/-- Index of the last occurrence of `c` (Python `str.rfind`, with `none`
for `-1`). -/
def lastIdxOf (c : Char) (s : List Char) : Option Nat :=
  match (s.reverse).findIdx? (fun x => x == c) with
  | some i => some (s.length - 1 - i)
  | none => none

/-- JSON values, as produced by `json.loads`: `null`, booleans, numbers,
strings, arrays and objects.  Objects are association lists of
(key, value) pairs in textual order. -/
inductive JVal : Type where
  | jnull : JVal
  | jbool : Bool → JVal
  | jnum : Rat → JVal
  | jstr : List Char → JVal
  | jarr : List JVal → JVal
  | jobj : List (List Char × JVal) → JVal

/-- A Python dictionary with string keys (e.g. a candidate record or the
rubric config), modelled as an association list. -/
abbrev PyDict := List (List Char × JVal)

mutual

/-- Structural size of a `JVal` (used to budget parser fuel). -/
def jsize : JVal → Nat
  | .jnull => 1
  | .jbool _ => 1
  | .jnum _ => 1
  | .jstr _ => 1
  | .jarr l => 1 + jsizeL l
  | .jobj l => 1 + jsizeM l

/-- Total size of a list of array elements. -/
def jsizeL : List JVal → Nat
  | [] => 0
  | v :: vs => 1 + jsize v + jsizeL vs

/-- Total size of a list of object members. -/
def jsizeM : List (List Char × JVal) → Nat
  | [] => 0
  | (_, v) :: ms => 1 + jsize v + jsizeM ms

end

/-- Python dictionary lookup `d[k]` / `d.get(k)` on a dict built from a
(key, value) sequence: the *last* binding of a key wins, as in CPython. -/
def pyGet (d : PyDict) (k : List Char) : Option JVal :=
  match d.reverse.find? (fun p => p.1 == k) with
  | some p => some p.2
  | none => none

/-- Python truthiness (`bool(x)`) of a JSON-derived value. -/
def pyTruthy : JVal → Bool
  | .jnull => false
  | .jbool b => b
  | .jnum q => q != 0
  | .jstr s => s != []
  | .jarr [] => false
  | .jarr (_ :: _) => true
  | .jobj [] => false
  | .jobj (_ :: _) => true

/-- Python `isinstance(x, (int, float))` on a JSON-derived value.  In
CPython `bool` is a subclass of `int`, so booleans pass this check. -/
def pyIsNumber : JVal → Bool
  | .jnum _ => true
  | .jbool _ => true
  | _ => false

/-- Python `float(x)` on a value passing `pyIsNumber` (booleans coerce to
`0.0` / `1.0`); other values are given an arbitrary image. -/
def pyFloat : JVal → Rat
  | .jnum q => q
  | .jbool b => if b then 1 else 0
  | _ => 0

/-- Decimal digit character for `d < 10`. -/
def digitChar (d : Nat) : Char :=
  match d with
  | 0 => '0' | 1 => '1' | 2 => '2' | 3 => '3' | 4 => '4'
  | 5 => '5' | 6 => '6' | 7 => '7' | 8 => '8' | _ => '9'

/-- Numeric value of a digit character. -/
def charVal (c : Char) : Nat := c.toNat - 48

/-- Base-10 digits (least significant first), fuel-based so that it
evaluates inside the kernel. -/
def natDigitsAux : Nat → Nat → List Nat
  | 0, _ => []
  | _ + 1, 0 => []
  | fuel + 1, n + 1 => ((n + 1) % 10) :: natDigitsAux fuel ((n + 1) / 10)

/-- Base-10 digits of `n`, least significant first (agrees with
`Nat.digits 10 n`). -/
def natDigits (n : Nat) : List Nat := natDigitsAux n n

/-- Decimal representation of a natural number. -/
def natRepr (n : Nat) : List Char :=
  if n = 0 then ['0'] else ((natDigits n).reverse).map digitChar

/-- Decimal representation of an integer. -/
def intRepr (n : Int) : List Char :=
  if n < 0 then '-' :: natRepr n.natAbs else natRepr n.natAbs

/-- Accumulate a digit string into a natural number (most significant
digit first). -/
def digitsToNat (ds : List Char) : Nat :=
  ds.foldl (fun a c => 10 * a + charVal c) 0

/-- Least `k` with `10^k` divisible by `d`, if one exists below the
search bound (exists exactly when `d` has only the prime factors 2, 5). -/
def decExp (d : Nat) : Option Nat :=
  (List.range (d + 1)).find? (fun k => 10 ^ k % d == 0)

/-- Left-pad a digit string with zeros to length `k`. -/
def padZeros (k : Nat) (ds : List Char) : List Char :=
  List.replicate (k - ds.length) '0' ++ ds

/-- Decimal rendering of a rational: exact for integers and for
fractions with a power-of-ten-compatible denominator (which covers every
value produced by the JSON number parser); a fraction form otherwise. -/
def ratRepr (q : Rat) : List Char :=
  if q.den = 1 then intRepr q.num
  else
    match decExp q.den with
    | some k =>
      let scaled : Nat := q.num.natAbs * (10 ^ k) / q.den
      let ip := scaled / 10 ^ k
      let fp := scaled % 10 ^ k
      (if q.num < 0 then ['-'] else []) ++ natRepr ip ++ '.' :: padZeros k (natRepr fp)
    | none => intRepr q.num ++ '/' :: natRepr q.den

mutual

/-- Python `repr()` of a JSON-derived value (as used by `str()` on
containers).  Numbers render in decimal; the int/float distinction of
CPython (`1` vs `1.0`) is abstracted away. -/
def pyRepr : JVal → List Char
  | .jnull => strL "None"
  | .jbool b => if b then strL "True" else strL "False"
  | .jnum q => ratRepr q
  | .jstr s => Char.ofNat 39 :: s ++ [Char.ofNat 39]
  | .jarr l => '[' :: pyReprElems l ++ [']']
  | .jobj l => '{' :: pyReprMems l ++ ['}']

/-- `repr` of array elements, comma-separated. -/
def pyReprElems : List JVal → List Char
  | [] => []
  | [v] => pyRepr v
  | v :: vs => pyRepr v ++ ',' :: ' ' :: pyReprElems vs

/-- `repr` of object members, comma-separated. -/
def pyReprMems : List (List Char × JVal) → List Char
  | [] => []
  | [(k, v)] => pyRepr (.jstr k) ++ ':' :: ' ' :: pyRepr v
  | (k, v) :: ms => pyRepr (.jstr k) ++ ':' :: ' ' :: pyRepr v ++ ',' :: ' ' :: pyReprMems ms

end

/-- Python `str()` of a JSON-derived value: identity on strings,
`repr`-style otherwise. -/
def pyStr : JVal → List Char
  | .jstr s => s
  | v => pyRepr v

mutual

/-- Canonical compact JSON serialization (`json.dumps` with default
separators minus the optional spaces; the properties below never depend
on inter-token whitespace). -/
def serV : JVal → List Char
  | .jnull => strL "null"
  | .jbool true => strL "true"
  | .jbool false => strL "false"
  | .jnum q => ratRepr q
  | .jstr s => dquote :: s ++ [dquote]
  | .jarr l => '[' :: serElems l ++ [']']
  | .jobj l => '{' :: serMems l ++ ['}']

/-- Serialization of array elements, comma-separated. -/
def serElems : List JVal → List Char
  | [] => []
  | [v] => serV v
  | v :: vs => serV v ++ ',' :: serElems vs

/-- Serialization of object members, comma-separated. -/
def serMems : List (List Char × JVal) → List Char
  | [] => []
  | [(k, v)] => dquote :: k ++ dquote :: ':' :: serV v
  | (k, v) :: ms => dquote :: k ++ dquote :: ':' :: serV v ++ ',' :: serMems ms

end

/-- Skip JSON inter-token whitespace. -/
def skipWs (s : List Char) : List Char := s.dropWhile isWsChar

/-- Parse the body of a JSON string after the opening quote: scan to the
closing quote (the model omits backslash escape processing, which none
of the verified properties exercise). -/
def parseStrBody (s : List Char) : Option (List Char × List Char) :=
  let cs := s.takeWhile (fun c => c != dquote)
  match s.dropWhile (fun c => c != dquote) with
  | c :: r => if c == dquote then some (cs, r) else none
  | [] => none

/-- Parse an unsigned JSON number: integer digits then optional
fractional digits. -/
def parseNumAux (s : List Char) : Option (Rat × List Char) :=
  let ds := s.takeWhile Char.isDigit
  if ds = [] then none
  else
    let rest1 := s.dropWhile Char.isDigit
    let ip : Nat := digitsToNat ds
    match rest1 with
    | '.' :: t =>
      let fs := t.takeWhile Char.isDigit
      if fs = [] then none
      else
        let rest2 := t.dropWhile Char.isDigit
        let q : Rat := (ip : Rat) + (digitsToNat fs : Rat) / ((10 : Rat) ^ fs.length)
        some (q, rest2)
    | _ => some ((ip : Rat), rest1)

/-- Parse a JSON number: optional minus, then an unsigned number
(exponent forms omitted; none of the verified properties exercise
them). -/
def parseNum (s : List Char) : Option (Rat × List Char) :=
  match s with
  | '-' :: t => (parseNumAux t).map (fun p => (-p.1, p.2))
  | _ => parseNumAux s

mutual

/-- Fuel-based recursive-descent parser for one JSON value, modelling
the grammar accepted by `json.loads`.  Returns the value and the
unconsumed remainder, or `none` on a syntax error (or fuel exhaustion,
which sufficient fuel rules out). -/
def parseVal : Nat → List Char → Option (JVal × List Char)
  | 0, _ => none
  | fuel + 1, s =>
    match skipWs s with
    | 'n' :: 'u' :: 'l' :: 'l' :: r => some (.jnull, r)
    | 't' :: 'r' :: 'u' :: 'e' :: r => some (.jbool true, r)
    | 'f' :: 'a' :: 'l' :: 's' :: 'e' :: r => some (.jbool false, r)
    | '"' :: r =>
      match parseStrBody r with
      | some (cs, r1) => some (.jstr cs, r1)
      | none => none
    | '[' :: r =>
      (match skipWs r with
      | ']' :: r2 => some (.jarr [], r2)
      | s2 =>
        match parseElems fuel s2 with
        | some (vs, r3) => some (.jarr vs, r3)
        | none => none)
    | '{' :: r =>
      (match skipWs r with
      | '}' :: r2 => some (.jobj [], r2)
      | s2 =>
        match parseMems fuel s2 with
        | some (ms, r3) => some (.jobj ms, r3)
        | none => none)
    | s' =>
      match parseNum s' with
      | some (q, r) => some (.jnum q, r)
      | none => none

/-- Parse the elements of a non-empty JSON array (input starts at the
first element), consuming the closing bracket. -/
def parseElems : Nat → List Char → Option (List JVal × List Char)
  | 0, _ => none
  | fuel + 1, s =>
    match parseVal fuel s with
    | some (v, r) =>
      (match skipWs r with
      | ',' :: r2 =>
        (match parseElems fuel r2 with
        | some (vs, r3) => some (v :: vs, r3)
        | none => none)
      | ']' :: r2 => some ([v], r2)
      | _ => none)
    | none => none

/-- Parse the members of a non-empty JSON object (input starts at the
first key, whitespace already skipped), consuming the closing brace. -/
def parseMems : Nat → List Char → Option (List (List Char × JVal) × List Char)
  | 0, _ => none
  | fuel + 1, s =>
    match s with
    | '"' :: r =>
      (match parseStrBody r with
      | some (k, r1) =>
        (match skipWs r1 with
        | ':' :: r2 =>
          (match parseVal fuel r2 with
          | some (v, r3) =>
            (match skipWs r3 with
            | ',' :: r4 =>
              (match parseMems fuel (skipWs r4) with
              | some (ms, r5) => some ((k, v) :: ms, r5)
              | none => none)
            | '}' :: r4 => some ([(k, v)], r4)
            | _ => none)
          | none => none)
        | _ => none)
      | none => none)
    | _ => none

end

/-- `json.loads`: parse a complete JSON document, requiring that only
whitespace remains after the value.  `none` models `JSONDecodeError`. -/
def tryLoads (s : List Char) : Option JVal :=
  match parseVal (2 * s.length + 2) s with
  | some (v, rest) => if skipWs rest = [] then some v else none
  | none => none

/-- The error message of the brace-location failure in
`parse_llm_json_response`. -/
def noObjMsg : List Char := strL "No JSON object found in LLM response"

/-- The Markdown-fence stripping step of `parse_llm_json_response`:
if the text starts with a fence, drop the fence line; if it ends with a
fence, drop it and re-strip. -/
def stripFences (t : List Char) : List Char :=
  let t1 :=
    if t.take 3 = [btick, btick, btick] then
      match firstIdxOf '\n' t with
      | some i => t.drop (i + 1)
      | none => t
    else t
  if t1.drop (t1.length - 3) = [btick, btick, btick] then
    pyStrip (t1.take (t1.length - 3))
  else t1

/-- The whole text-preprocessing prefix of `parse_llm_json_response`:
whitespace strip, then fence stripping. -/
def prepro (raw : List Char) : List Char := stripFences (pyStrip raw)

/-- `ranking_logic.parse_llm_json_response`: strip whitespace and
fences, slice from the first `\x7b` to the last `\x7d`, parse, and on
failure retry once with a single appended closing brace.  An
`Except.error` models the raised `ValueError` with its message. -/
def parse_llm_json_response (raw : List Char) : Except (List Char) JVal :=
  let text := prepro raw
  match firstIdxOf '{' text, lastIdxOf '}' text with
  | some s, some e =>
    if e < s then .error noObjMsg
    else
      let snippet := (text.drop s).take (e + 1 - s)
      match tryLoads snippet with
      | some v => .ok v
      | none =>
        match tryLoads (snippet ++ ['}']) with
        | some v => .ok v
        | none => .error (strL "Failed to parse JSON snippet: " ++ snippet.take 200)
  | _, _ => .error noObjMsg

/-- Python `dict.setdefault`: insert the pair at the end when the key is
absent. -/
def pySetdefault (d : PyDict) (k : List Char) (v : JVal) : PyDict :=
  if (pyGet d k).isSome then d else d ++ [(k, v)]

/-- `ranking_logic.normalize_candidate`: copy the candidate and default
the five structural keys. -/
def normalize_candidate (raw : PyDict) : PyDict :=
  pySetdefault (pySetdefault (pySetdefault (pySetdefault (pySetdefault raw
    (strL "education") (.jobj []))
    (strL "skills") (.jobj []))
    (strL "general_skills") (.jarr []))
    (strL "personal_information") (.jobj []))
    (strL "available_types_of_work") (.jarr [])

/-- `ranking_logic.build_prompt_for_candidate`.  The two
`json.dumps(..., ensure_ascii=False, indent=2)` calls are modelled with
the canonical serializer `serV`; the whitespace layout of the serialized
candidate/config is irrelevant to every property below, since the
scoring client is universally quantified. -/
def build_prompt_for_candidate (candidate : PyDict) (config : PyDict) : List Char :=
  let cand := normalize_candidate candidate
  strL "You are an assistant that scores candidates for a software engineering role.\n" ++
  strL "Return a single STRICT JSON object EXACTLY in the format shown in the example.\n" ++
  strL "Important: The response must be valid JSON, with keys and strings in double quotes, no comments, no trailing commas, and no Markdown code fences. Respond with ONLY the JSON object and nothing else.\n\n" ++
  strL "Candidate (input):\n" ++
  serV (.jobj cand) ++ strL "\n\n" ++
  strL "Config (rules):\n" ++
  serV (.jobj config) ++ strL "\n\n" ++
  strL "RESPONSE FORMAT EXAMPLE (must be valid JSON):\n" ++
  strL "\x7b\n  \"score\": 0.82,\n  \"breakdown\": \x7b\n    \"experience\": 0.9,\n    \"education\": 0.6,\n    \"general\": 0.7,\n    \"optional_bonus\": 0.05\n  \x7d,\n  \"passed_required\": true,\n  \"reasons\": [\"Short explanation here\"],\n  \"explanation\": \"One or two sentence explanation\"\n\x7d\n\n" ++
  strL "Score the candidate now and return only the JSON object. Do not wrap it in backticks or markdown."

/-- `ranking_logic.call_llm` with an injected client (the
`llm_backend.score_candidate` fallback satisfies the same contract: text
prompt in, text reply out, or a raised error).  `Except.error` carries
the exception message. -/
def call_llm (llm_client : List Char → Except (List Char) (List Char))
    (prompt : List Char) : Except (List Char) (List Char) :=
  llm_client prompt

/-- The canonical per-candidate result record built by
`evaluate_candidates_with_llm`.  Fields holding Python `None` on the
failure path are `Option`s / `JVal.jnull`, matching the source dict. -/
structure CanonicalResult where
  id : JVal
  name : JVal
  llm_score : Option Rat
  score_10 : Option Rat
  breakdown : PyDict
  passed_required : Bool
  reasons : List JVal
  raw_llm_output : Option (List Char)
  explanation : JVal

/-- Lookup on a parsed JSON value (`parsed.get(k)`); the parsed reply is
always an object because the parsed snippet starts at a `\x7b`. -/
def pyGetV : JVal → List Char → Option JVal
  | .jobj l, k => pyGet l k
  | _, _ => none

/-- The record appended by the `except` branch of the per-candidate loop
in `evaluate_candidates_with_llm` (lines 165-175). -/
def mkErrResult (cand : PyDict) (e : List Char) : CanonicalResult :=
  { id := (pyGet cand (strL "id")).getD .jnull
    name := (pyGet cand (strL "name")).getD .jnull
    llm_score := none
    score_10 := none
    breakdown := []
    passed_required := false
    reasons := [.jstr (strL "LLM error: " ++ e)]
    raw_llm_output := none
    explanation := .jnull }

/-- The canonicalization step of `evaluate_candidates_with_llm` (lines
179-196): tolerant field-by-field extraction from the parsed reply. -/
def canonicalizeResult (cand : PyDict) (raw : List Char) (parsed : JVal) : CanonicalResult :=
  let score := pyGetV parsed (strL "score")
  -- score_10 = (score * 10) if isinstance(score, (int, float)) else None
  let score10 : Option Rat :=
    match score with
    | some v => if pyIsNumber v then some (pyFloat v * 10) else none
    | none => none
  -- llm_score = float(score) if isinstance(score, (int, float)) else None
  let llmScore : Option Rat :=
    match score with
    | some v => if pyIsNumber v then some (pyFloat v) else none
    | none => none
  let breakdown : PyDict :=
    match pyGetV parsed (strL "breakdown") with
    | some (.jobj l) => l
    | some _ => []
    | none => []
  let passed := pyTruthy ((pyGetV parsed (strL "passed_required")).getD (.jbool false))
  -- reasons = parsed.get("reasons") or []
  let reasons0 : JVal :=
    match pyGetV parsed (strL "reasons") with
    | some v => if pyTruthy v then v else .jarr []
    | none => .jarr []
  -- list(reasons) if isinstance(reasons, list) else [str(reasons)]
  let reasons : List JVal :=
    match reasons0 with
    | .jarr xs => xs
    | v => [.jstr (pyStr v)]
  { id := (pyGet cand (strL "id")).getD .jnull
    name := (pyGet cand (strL "name")).getD .jnull
    llm_score := llmScore
    score_10 := score10
    breakdown := breakdown
    passed_required := passed
    reasons := reasons
    raw_llm_output := some raw
    explanation := (pyGetV parsed (strL "explanation")).getD .jnull }

/-- The body of the `try` block of the per-candidate loop: invoke the
scorer on the built prompt, then parse the reply.  Either step may fail
with an exception message. -/
def attemptCandidate (llm_client : List Char → Except (List Char) (List Char))
    (config : PyDict) (cand : PyDict) : Except (List Char) (List Char × JVal) :=
  match call_llm llm_client (build_prompt_for_candidate cand config) with
  | .error e => .error e
  | .ok raw =>
    match parse_llm_json_response raw with
    | .error e => .error e
    | .ok parsed => .ok (raw, parsed)

/-- One iteration of the per-candidate loop: a failure is recorded and
the loop continues; a success is canonicalized. -/
def processOne (llm_client : List Char → Except (List Char) (List Char))
    (config : PyDict) (cand : PyDict) : CanonicalResult :=
  match attemptCandidate llm_client config cand with
  | .error e => mkErrResult cand e
  | .ok (raw, parsed) => canonicalizeResult cand raw parsed

/-- The `results` list accumulated by the loop of
`evaluate_candidates_with_llm`, in candidate order, before sorting. -/
def evalResults (llm_client : List Char → Except (List Char) (List Char))
    (config : PyDict) (cands : List PyDict) : List CanonicalResult :=
  cands.map (processOne llm_client config)

/-- `sort_key` (line 202): `(r["llm_score"] is None, -(r["llm_score"] or 0))`. -/
def sortKey (r : CanonicalResult) : Bool × Rat :=
  (r.llm_score.isNone, -(r.llm_score.getD 0))

/-- The ascending order on `sortKey` values used by `sorted`:
lexicographic on (Bool, Rat) with `false < true`. -/
def resLE (a b : CanonicalResult) : Prop :=
  (sortKey a).1 = false ∧ (sortKey b).1 = true ∨
  (sortKey a).1 = (sortKey b).1 ∧ (sortKey a).2 ≤ (sortKey b).2

instance : DecidableRel resLE := fun a b => by unfold resLE; infer_instance

instance : IsTotal CanonicalResult resLE where
  total a b := by
    unfold resLE
    rcases ha : (sortKey a).1 <;> rcases hb : (sortKey b).1 <;>
      rcases le_total (sortKey a).2 (sortKey b).2 with h | h <;> tauto

instance : IsTrans CanonicalResult resLE where
  trans a b c hab hbc := by
    unfold resLE at *
    rcases hab with ⟨h1, h2⟩ | ⟨h1, h2⟩ <;> rcases hbc with ⟨h3, h4⟩ | ⟨h3, h4⟩
    · simp [h2] at h3
    · exact Or.inl ⟨h1, h3.symm.trans h2⟩
    · exact Or.inl ⟨h1.trans h3, h4⟩
    · exact Or.inr ⟨h1.trans h3, h2.trans h4⟩

/-- `ranking_logic.evaluate_candidates_with_llm`: run the per-candidate
pipeline over the input order, then return the stable sort of the
results by `sort_key` (Python's `sorted` is a stable sort; insertion
sort is extensionally the same stable sort for this total preorder). -/
def evaluate_candidates_with_llm (candidates : List PyDict) (config : PyDict)
    (llm_client : List Char → Except (List Char) (List Char)) : List CanonicalResult :=
  List.insertionSort resLE (evalResults llm_client config candidates)

/-- Modelled from the spec: the repository's `constants` module is not
under `src/`; per the spec the backend configuration (account
identifier, auth token, model identifier) is resolved from environment
variables.  `BackendEnv` carries the three resolved values, with the
empty string for an unset variable. -/
structure BackendEnv where
  cloudflare_api_token : List Char
  cloudflare_account_id : List Char
  cloudflare_model : List Char

/-- `llm_backend.is_ollama_installed`: the startup configuration check,
`bool(CLOUDFLARE_API_TOKEN and CLOUDFLARE_ACCOUNT_ID)`. -/
def is_ollama_installed (env : BackendEnv) : Bool :=
  env.cloudflare_api_token != [] && env.cloudflare_account_id != []

/-- `llm_backend._get_cloudflare_config`: resolve account, token and
model, raising (`Except.error` with the message) when one is missing.
`model or CLOUDFLARE_MODEL` is Python `or`: the right operand is taken
when the left is falsy (absent or empty). -/
def get_cloudflare_config (model : Option (List Char)) (env : BackendEnv) :
    Except (List Char) (List Char × List Char × List Char) :=
  let account_id := env.cloudflare_account_id
  let api_token := env.cloudflare_api_token
  let model_name :=
    match model with
    | some m => if m != [] then m else env.cloudflare_model
    | none => env.cloudflare_model
  if account_id = [] then .error (strL "Missing CLOUDFLARE_ACCOUNT_ID environment variable.")
  else if api_token = [] then .error (strL "Missing CLOUDFLARE_API_TOKEN environment variable.")
  else if model_name = [] then
    .error (strL "Cloudflare model name is empty. Set CLOUDFLARE_MODEL or pass model explicitly.")
  else .ok (account_id, api_token, model_name)

/-- The `%PDF-` magic header bytes. -/
def pdfMagic : List Nat := [37, 80, 68, 70, 45]

/-- `pdf_parser._is_pdf_bytes`: check the magic header (the
`isinstance` guard is satisfied by construction here, the argument being
bytes). -/
def is_pdf_bytes (data : List Nat) : Bool := data.take 5 == pdfMagic

/-- Python exceptions raised by `load_pdf_binary`. -/
inductive PyError where
  | typeError (msg : List Char)
  | valueError (msg : List Char)

/-- The possible shapes of the `pdf_contents` argument of
`load_pdf_binary`: bytes/bytearray, a file-like object (whose `read()`
yields bytes, text, or something else), a text string, or an
unsupported value. -/
inductive PdfInput where
  | byteslike (b : List Nat)
  | filelikeBytes (b : List Nat)
  | filelikeText (s : List Nat)
  | filelikeOther
  | textInput (s : List Nat)
  | otherInput

/-- `str.encode('latin-1')`: code points 0..255 map directly to bytes;
higher code points raise (a `UnicodeEncodeError`). -/
def latin1_encode (s : List Nat) : Except PyError (List Nat) :=
  if s.all (fun c => c < 256) then .ok s
  else .error (.valueError (strL "latin-1 codec cannot encode character"))

/-- `pdf_parser.load_pdf_binary`: normalize the input to bytes, then
validate the `%PDF-` header. -/
def load_pdf_binary (pdf_contents : PdfInput) : Except PyError (List Nat) :=
  let data : Except PyError (List Nat) :=
    match pdf_contents with
    | .byteslike b => .ok b
    | .filelikeBytes b => .ok b
    | .filelikeText s => latin1_encode s
    | .filelikeOther => .error (.typeError (strL "file.read() returned unsupported type"))
    | .textInput s => latin1_encode s
    | .otherInput =>
      .error (.typeError (strL "Unsupported input type for load_pdf_binary; expected bytes, file-like, or str"))
  match data with
  | .error e => .error e
  | .ok d =>
    if is_pdf_bytes d then .ok d
    else .error (.valueError (strL "Provided data does not appear to be a PDF (missing %PDF- header)"))

mutual

/-- Values whose canonical serialization the parser maps back exactly:
strings and keys contain no quote character, and numbers are integers
(the serializer is exact there; general decimals would only add noise to
the round-trip statement). -/
def serOkV : JVal → Prop
  | .jnull => True
  | .jbool _ => True
  | .jnum q => q.den = 1
  | .jstr s => ∀ c ∈ s, c ≠ dquote
  | .jarr l => serOkL l
  | .jobj l => serOkM l

/-- `serOkV` over array elements. -/
def serOkL : List JVal → Prop
  | [] => True
  | v :: vs => serOkV v ∧ serOkL vs

/-- `serOkV` over object members (keys quote-free, values ok). -/
def serOkM : List (List Char × JVal) → Prop
  | [] => True
  | (k, v) :: ms => (∀ c ∈ k, c ≠ dquote) ∧ serOkV v ∧ serOkM ms

end

/-- The characters that may legally follow a serialized number in the
round-trip lemmas: end of input, or a non-digit other than `'.'` (in
context always `,`, `]`, `\x7d` or nothing). -/
def numStop : List Char → Bool
  | [] => true
  | c :: _ => !c.isDigit && c != '.'

/-! ## Concrete fixtures for the closed-instance theorems below -/

/-- A sample candidate record. -/
def exCand1 : PyDict := [(strL "id", .jnum 1), (strL "name", .jstr (strL "Ann Smith"))]

/-- A second sample candidate record. -/
def exCand2 : PyDict := [(strL "id", .jnum 2), (strL "name", .jstr (strL "Bob Jones"))]

/-- A third sample candidate record (no name). -/
def exCand3 : PyDict := [(strL "id", .jnum 3)]

/-- A well-formed scorer reply with score 5. -/
def exReplyA : List Char := strL "\x7b\"score\": 5, \"passed_required\": true\x7d"

/-- A well-formed scorer reply with score 3. -/
def exReplyB : List Char := strL "\x7b\"score\": 3, \"passed_required\": true\x7d"

/-- A scoring client that replies score 5 to the first sample candidate
and score 3 to everything else. -/
def exClientScored : List Char → Except (List Char) (List Char) := fun p =>
  if p = build_prompt_for_candidate exCand1 [] then .ok exReplyA else .ok exReplyB

/-- The same client, except that it raises a transport error on the
second sample candidate. -/
def exClientFail : List Char → Except (List Char) (List Char) := fun p =>
  if p = build_prompt_for_candidate exCand2 [] then .error (strL "connection reset")
  else exClientScored p

/-! ## Digit and number lemmas -/

theorem natDigitsAux_eq (fuel : Nat) : ∀ n : Nat, n ≤ fuel → natDigitsAux fuel n = Nat.digits 10 n := by
  induction fuel with
  | zero =>
    intro n h
    have h0 : n = 0 := by omega
    subst h0
    rw [Nat.digits_zero]
    rfl
  | succ fuel ih =>
    intro n h
    cases n with
    | zero => rw [Nat.digits_zero]; rfl
    | succ m =>
      show ((m + 1) % 10) :: natDigitsAux fuel ((m + 1) / 10) = _
      have hdiv : (m + 1) / 10 ≤ fuel := by
        have := Nat.div_lt_self (Nat.succ_pos m) (by norm_num : 1 < 10)
        omega
      rw [ih ((m + 1) / 10) hdiv, ← Nat.digits_def' (by norm_num : 1 < 10) (Nat.succ_pos m)]

theorem natDigits_eq_digits (n : Nat) : natDigits n = Nat.digits 10 n :=
  natDigitsAux_eq n n le_rfl

theorem charVal_digitChar {d : Nat} (hd : d < 10) : charVal (digitChar d) = d := by
  interval_cases d <;> rfl

theorem isDigit_digitChar {d : Nat} (hd : d < 10) : (digitChar d).isDigit = true := by
  interval_cases d <;> rfl

theorem ne_of_isDigit {c c' : Char} (h : c.isDigit = true) (h' : c'.isDigit = false) :
    c ≠ c' := by
  intro e
  rw [e, h'] at h
  cases h

theorem not_ws_of_isDigit {c : Char} (h : c.isDigit = true) : isWsChar c = false := by
  cases hw : isWsChar c with
  | false => rfl
  | true =>
    simp only [isWsChar, Bool.or_eq_true, beq_iff_eq] at hw
    rcases hw with ((hc | hc) | hc) | hc <;> subst hc <;> exact absurd h (by decide)

theorem foldl_digits_aux (ds : List Nat) (h : ∀ d ∈ ds, d < 10) (acc : Nat) :
    List.foldl (fun a c => 10 * a + charVal c) acc ((ds.reverse).map digitChar) =
      acc * 10 ^ ds.length + Nat.ofDigits 10 ds := by
  induction ds generalizing acc with
  | nil => simp [Nat.ofDigits_nil]
  | cons d tl ih =>
    have hd : d < 10 := h d (by simp)
    have htl : ∀ x ∈ tl, x < 10 := fun x hx => h x (by simp [hx])
    simp only [List.reverse_cons, List.map_append, List.map_cons, List.map_nil,
      List.foldl_append, ih htl acc, List.foldl_cons, List.foldl_nil]
    rw [charVal_digitChar hd, Nat.ofDigits_cons, List.length_cons]
    ring

theorem digitsToNat_natRepr (n : Nat) : digitsToNat (natRepr n) = n := by
  by_cases h0 : n = 0
  · subst h0; rfl
  · unfold natRepr digitsToNat
    rw [if_neg h0, natDigits_eq_digits]
    have := foldl_digits_aux (Nat.digits 10 n)
      (fun d hd => Nat.digits_lt_base (by norm_num) hd) 0
    simpa [Nat.ofDigits_digits] using this

theorem natRepr_digits (n : Nat) : ∀ c ∈ natRepr n, c.isDigit = true := by
  intro c hc
  unfold natRepr at hc
  split at hc
  · simp only [List.mem_singleton] at hc
    subst hc; rfl
  · simp only [List.mem_map] at hc
    obtain ⟨d, hd, rfl⟩ := hc
    have hd2 : d ∈ natDigits n := List.mem_reverse.mp hd
    rw [natDigits_eq_digits] at hd2
    exact isDigit_digitChar (Nat.digits_lt_base (by norm_num) hd2)

theorem natRepr_ne_nil (n : Nat) : natRepr n ≠ [] := by
  unfold natRepr
  split
  · simp
  · have : natDigits n ≠ [] := by
      rw [natDigits_eq_digits]
      exact Nat.digits_ne_nil_iff_ne_zero.mpr (by assumption)
    simp [this]

theorem natRepr_cons (n : Nat) : ∃ c cs, natRepr n = c :: cs ∧ c.isDigit = true := by
  cases hnr : natRepr n with
  | nil => exact absurd hnr (natRepr_ne_nil n)
  | cons c cs =>
    refine ⟨c, cs, rfl, ?_⟩
    exact natRepr_digits n c (by rw [hnr]; simp)

/-! ## takeWhile / dropWhile helpers -/

theorem takeWhile_append_of_all {p : Char → Bool} {l r : List Char}
    (hl : ∀ c ∈ l, p c = true) (hr : r.takeWhile p = []) :
    (l ++ r).takeWhile p = l := by
  rw [List.takeWhile_append]
  have h1 : l.takeWhile p = l := List.takeWhile_eq_self_iff.mpr hl
  rw [h1, if_pos rfl, hr, List.append_nil]

theorem dropWhile_append_of_all {p : Char → Bool} {l r : List Char}
    (hl : ∀ c ∈ l, p c = true) (hr : r.takeWhile p = []) :
    (l ++ r).dropWhile p = r := by
  rw [List.dropWhile_append]
  have h1 : l.dropWhile p = [] := List.dropWhile_eq_nil_iff.mpr hl
  rw [h1]
  simp only [List.isEmpty_nil, if_pos]
  cases r with
  | nil => rfl
  | cons c t =>
    cases hp : p c with
    | false => exact List.dropWhile_cons_of_neg (by simp [hp])
    | true => rw [List.takeWhile_cons_of_pos hp] at hr; cases hr

theorem takeWhile_nil_of_head {p : Char → Bool} {r : List Char}
    (h : ∀ c t, r = c :: t → p c = false) : r.takeWhile p = [] := by
  cases r with
  | nil => rfl
  | cons c t => exact List.takeWhile_cons_of_neg (by simp [h c t rfl])

/-! ## Number parser round-trip -/

theorem numStop_digit_false {c : Char} {t : List Char} (h : numStop (c :: t) = true) :
    c.isDigit = false ∧ c ≠ '.' := by
  simp only [numStop, Bool.and_eq_true, Bool.not_eq_true', bne_iff_ne, ne_eq] at h
  exact ⟨h.1, h.2⟩

theorem takeWhile_digit_stop {rest : List Char} (h : numStop rest = true) :
    rest.takeWhile Char.isDigit = [] := by
  refine takeWhile_nil_of_head (fun c t hc => ?_)
  subst hc
  exact (numStop_digit_false h).1

theorem parseNumAux_natRepr (m : Nat) {rest : List Char} (h : numStop rest = true) :
    parseNumAux (natRepr m ++ rest) = some ((m : Rat), rest) := by
  have htw : (natRepr m ++ rest).takeWhile Char.isDigit = natRepr m :=
    takeWhile_append_of_all (natRepr_digits m) (takeWhile_digit_stop h)
  have hdw : (natRepr m ++ rest).dropWhile Char.isDigit = rest :=
    dropWhile_append_of_all (natRepr_digits m) (takeWhile_digit_stop h)
  unfold parseNumAux
  simp only [htw, hdw]
  rw [if_neg (natRepr_ne_nil m)]
  cases rest with
  | nil => simp [digitsToNat_natRepr]
  | cons c t =>
    have hc : c ≠ '.' := (numStop_digit_false h).2
    have : (match c :: t with
        | '.' :: t =>
          let fs := t.takeWhile Char.isDigit
          if fs = [] then none
          else
            let rest2 := t.dropWhile Char.isDigit
            let q : Rat := (digitsToNat (natRepr m) : Rat) +
              (digitsToNat fs : Rat) / ((10 : Rat) ^ fs.length)
            some (q, rest2)
        | _ => some ((digitsToNat (natRepr m) : Rat), c :: t)) =
        some ((digitsToNat (natRepr m) : Rat), c :: t) := by
      split
      · rename_i heq
        injection heq with h1 _
        exact absurd h1 hc
      · rfl
    rw [this, digitsToNat_natRepr]

theorem parseNum_not_minus {c : Char} {cs : List Char} (h : c ≠ '-') :
    parseNum (c :: cs) = parseNumAux (c :: cs) := by
  unfold parseNum
  split
  · rename_i heq
    injection heq with h1 _
    exact absurd h1 h
  · rfl

theorem parseNum_natRepr (m : Nat) {rest : List Char} (h : numStop rest = true) :
    parseNum (natRepr m ++ rest) = some ((m : Rat), rest) := by
  obtain ⟨c, cs, hnr, hcd⟩ := natRepr_cons m
  rw [hnr, List.cons_append,
    parseNum_not_minus (ne_of_isDigit hcd (by rfl)), ← List.cons_append, ← hnr]
  exact parseNumAux_natRepr m h

theorem parseNum_intRepr (n : Int) {rest : List Char} (h : numStop rest = true) :
    parseNum (intRepr n ++ rest) = some ((n : Rat), rest) := by
  unfold intRepr
  by_cases hn : n < 0
  · rw [if_pos hn, List.cons_append]
    show (parseNumAux (natRepr n.natAbs ++ rest)).map (fun p => (-p.1, p.2)) = _
    rw [parseNumAux_natRepr n.natAbs h, Option.map_some']
    have : ((n.natAbs : Nat) : Rat) = -(n : Rat) := by
      rw [Int.cast_natAbs, abs_of_neg hn]
      push_cast
      ring
    rw [this, neg_neg]
  · rw [if_neg hn, parseNum_natRepr n.natAbs h]
    have : ((n.natAbs : Nat) : Rat) = (n : Rat) := by
      rw [Int.cast_natAbs, abs_of_nonneg (not_lt.mp hn)]
    rw [this]

theorem parseNum_ratRepr (q : Rat) (hq : q.den = 1) {rest : List Char}
    (h : numStop rest = true) : parseNum (ratRepr q ++ rest) = some (q, rest) := by
  unfold ratRepr
  rw [if_pos hq, parseNum_intRepr q.num h, (Rat.den_eq_one_iff q).mp hq]

/-! ## String body parser round-trip -/

theorem parseStrBody_ser {s rest : List Char} (h : ∀ c ∈ s, c ≠ dquote) :
    parseStrBody (s ++ dquote :: rest) = some (s, rest) := by
  have hall : ∀ c ∈ s, (fun c => c != dquote) c = true := by
    intro c hc
    simp [bne_iff_ne, h c hc]
  have hstop : (dquote :: rest).takeWhile (fun c => c != dquote) = [] :=
    List.takeWhile_cons_of_neg (by simp)
  have htw := takeWhile_append_of_all hall hstop
  have hdw := dropWhile_append_of_all hall hstop
  unfold parseStrBody
  simp only [htw, hdw]
  rw [if_pos (by rfl)]

/-! ## Head characters of serializations, sizes, whitespace -/

theorem skipWs_cons {c : Char} {l : List Char} (h : isWsChar c = false) :
    skipWs (c :: l) = c :: l :=
  List.dropWhile_cons_of_neg (by simp [h])

theorem intRepr_head (n : Int) :
    ∃ c cs, intRepr n = c :: cs ∧ (c = '-' ∨ c.isDigit = true) := by
  unfold intRepr
  split
  · exact ⟨'-', natRepr n.natAbs, rfl, Or.inl rfl⟩
  · obtain ⟨c, cs, h, hd⟩ := natRepr_cons n.natAbs
    exact ⟨c, cs, h, Or.inr hd⟩

theorem ratRepr_head (q : Rat) :
    ∃ c cs, ratRepr q = c :: cs ∧ (c = '-' ∨ c.isDigit = true) := by
  unfold ratRepr
  split
  · exact intRepr_head q.num
  · split
    · rename_i k hk
      by_cases hq : q.num < 0
      · rw [if_pos hq]
        exact ⟨'-', _, rfl, Or.inl rfl⟩
      · rw [if_neg hq]
        dsimp only
        rw [List.nil_append]
        obtain ⟨c, cs, h, hd⟩ := natRepr_cons (q.num.natAbs * 10 ^ k / q.den / 10 ^ k)
        rw [h, List.cons_append]
        exact ⟨c, _, rfl, Or.inr hd⟩
    · obtain ⟨c, cs, h, hd⟩ := intRepr_head q.num
      rw [h, List.cons_append]
      exact ⟨c, _, rfl, hd⟩

theorem serV_head (v : JVal) :
    ∃ c cs, serV v = c :: cs ∧ isWsChar c = false ∧ c ≠ ']' ∧ c ≠ '}' := by
  cases v with
  | jnull => exact ⟨'n', _, rfl, by decide, by decide, by decide⟩
  | jbool b =>
    cases b
    · exact ⟨'f', _, rfl, by decide, by decide, by decide⟩
    · exact ⟨'t', _, rfl, by decide, by decide, by decide⟩
  | jnum q =>
    obtain ⟨c, cs, h, hd⟩ := ratRepr_head q
    refine ⟨c, cs, by rw [serV, h], ?_, ?_, ?_⟩
    · rcases hd with rfl | hd
      · decide
      · exact not_ws_of_isDigit hd
    · rcases hd with rfl | hd
      · decide
      · exact ne_of_isDigit hd (by rfl)
    · rcases hd with rfl | hd
      · decide
      · exact ne_of_isDigit hd (by rfl)
  | jstr s => exact ⟨dquote, _, rfl, by decide, by decide, by decide⟩
  | jarr l => exact ⟨'[', _, rfl, by decide, by decide, by decide⟩
  | jobj l => exact ⟨'{', _, rfl, by decide, by decide, by decide⟩

theorem jsize_pos : ∀ v : JVal, 1 ≤ jsize v := by
  intro v
  cases v <;> simp [jsize]

theorem jsizeL_pos {l : List JVal} (h : l ≠ []) : 1 ≤ jsizeL l := by
  cases l with
  | nil => exact absurd rfl h
  | cons v vs => simp only [jsizeL]; omega

theorem jsizeM_pos {ms : List (List Char × JVal)} (h : ms ≠ []) : 1 ≤ jsizeM ms := by
  cases ms with
  | nil => exact absurd rfl h
  | cons m ms' => obtain ⟨k, v⟩ := m; simp only [jsizeM]; omega

mutual

theorem jsize_le_serV : ∀ v : JVal, jsize v ≤ (serV v).length
  | .jnull => by simp [jsize, serV, strL]
  | .jbool b => by cases b <;> simp [jsize, serV, strL]
  | .jnum q => by
    obtain ⟨c, cs, h, _⟩ := ratRepr_head q
    simp [jsize, serV, h]
  | .jstr s => by simp [jsize, serV]
  | .jarr l => by
    have := jsizeL_le_serElems l
    simp only [jsize, serV, List.length_append, List.length_cons]
    omega
  | .jobj l => by
    have := jsizeM_le_serMems l
    simp only [jsize, serV, List.length_append, List.length_cons]
    omega

theorem jsizeL_le_serElems : ∀ l : List JVal, jsizeL l ≤ 1 + (serElems l).length
  | [] => by simp [jsizeL]
  | [v] => by
    have := jsize_le_serV v
    simp only [jsizeL, serElems]
    omega
  | v :: v' :: vs => by
    have h1 := jsize_le_serV v
    have h2 := jsizeL_le_serElems (v' :: vs)
    simp only [jsizeL, serElems, List.length_append, List.length_cons] at h2 ⊢
    omega

theorem jsizeM_le_serMems : ∀ ms : List (List Char × JVal), jsizeM ms ≤ 1 + (serMems ms).length
  | [] => by simp [jsizeM]
  | [(k, v)] => by
    have := jsize_le_serV v
    simp only [jsizeM, serMems, List.length_append, List.length_cons]
    omega
  | (k, v) :: m' :: ms => by
    have h1 := jsize_le_serV v
    have h2 := jsizeM_le_serMems (m' :: ms)
    simp only [jsizeM, serMems, List.length_append, List.length_cons] at h2 ⊢
    omega

end

/-! ## Unfolding helpers for the parser -/

theorem parseVal_succ_str (fuel : Nat) (r : List Char) :
    parseVal (fuel + 1) (dquote :: r) =
      match parseStrBody r with
      | some (cs, r1) => some (.jstr cs, r1)
      | none => none := rfl

theorem parseVal_succ_arr (fuel : Nat) (r : List Char) :
    parseVal (fuel + 1) ('[' :: r) =
      (match skipWs r with
      | ']' :: r2 => some (.jarr [], r2)
      | s2 =>
        match parseElems fuel s2 with
        | some (vs, r3) => some (.jarr vs, r3)
        | none => none) := rfl

theorem parseVal_succ_obj (fuel : Nat) (r : List Char) :
    parseVal (fuel + 1) ('{' :: r) =
      (match skipWs r with
      | '}' :: r2 => some (.jobj [], r2)
      | s2 =>
        match parseMems fuel s2 with
        | some (ms, r3) => some (.jobj ms, r3)
        | none => none) := rfl

theorem parseVal_succ_other {c : Char} {t : List Char} (fuel : Nat)
    (hws : isWsChar c = false) (h1 : c ≠ 'n') (h2 : c ≠ 't') (h3 : c ≠ 'f')
    (h4 : c ≠ dquote) (h5 : c ≠ '[') (h6 : c ≠ '{') :
    parseVal (fuel + 1) (c :: t) =
      match parseNum (c :: t) with
      | some (q, r) => some (JVal.jnum q, r)
      | none => none := by
  show (match skipWs (c :: t) with
    | 'n' :: 'u' :: 'l' :: 'l' :: r => some (JVal.jnull, r)
    | 't' :: 'r' :: 'u' :: 'e' :: r => some (JVal.jbool true, r)
    | 'f' :: 'a' :: 'l' :: 's' :: 'e' :: r => some (JVal.jbool false, r)
    | '"' :: r =>
      match parseStrBody r with
      | some (cs, r1) => some (JVal.jstr cs, r1)
      | none => none
    | '[' :: r =>
      (match skipWs r with
      | ']' :: r2 => some (JVal.jarr [], r2)
      | s2 =>
        match parseElems fuel s2 with
        | some (vs, r3) => some (JVal.jarr vs, r3)
        | none => none)
    | '{' :: r =>
      (match skipWs r with
      | '}' :: r2 => some (JVal.jobj [], r2)
      | s2 =>
        match parseMems fuel s2 with
        | some (ms, r3) => some (JVal.jobj ms, r3)
        | none => none)
    | s' =>
      match parseNum s' with
      | some (q, r) => some (JVal.jnum q, r)
      | none => none) = _
  rw [skipWs_cons hws]
  split
  · rename_i heq
    injection heq with hh _
    exact absurd hh h1
  · rename_i heq
    injection heq with hh _
    exact absurd hh h2
  · rename_i heq
    injection heq with hh _
    exact absurd hh h3
  · rename_i heq
    injection heq with hh _
    exact absurd hh h4
  · rename_i heq
    injection heq with hh _
    exact absurd hh h5
  · rename_i heq
    injection heq with hh _
    exact absurd hh h6
  · rfl

/-! ## The parser/serializer round-trip -/

theorem parse_ser_round (fuel : Nat) :
    (∀ (v : JVal) (rest : List Char), serOkV v → numStop rest = true →
      2 * jsize v ≤ fuel → parseVal fuel (serV v ++ rest) = some (v, rest)) ∧
    (∀ (l : List JVal) (rest : List Char), l ≠ [] → serOkL l →
      2 * jsizeL l + 1 ≤ fuel → parseElems fuel (serElems l ++ ']' :: rest) = some (l, rest)) ∧
    (∀ (ms : List (List Char × JVal)) (rest : List Char), ms ≠ [] → serOkM ms →
      2 * jsizeM ms + 1 ≤ fuel → parseMems fuel (serMems ms ++ '}' :: rest) = some (ms, rest)) := by
  induction fuel with
  | zero =>
    refine ⟨fun v rest _ _ hf => ?_, fun l rest hne _ hf => ?_, fun ms rest hne _ hf => ?_⟩
    · have := jsize_pos v; omega
    · have := jsizeL_pos hne; omega
    · have := jsizeM_pos hne; omega
  | succ fuel ih =>
    obtain ⟨ihv, ihl, ihm⟩ := ih
    refine ⟨fun v rest hok hstop hf => ?_, fun l rest hne hok hf => ?_,
      fun ms rest hne hok hf => ?_⟩
    · cases v with
      | jnull => rfl
      | jbool b => cases b <;> rfl
      | jnum q =>
        have hden : q.den = 1 := hok
        obtain ⟨c, cs, hc, hd⟩ := ratRepr_head q
        have hser : serV (.jnum q) = c :: cs := hc
        rw [hser, List.cons_append]
        have hws : isWsChar c = false := by
          rcases hd with rfl | hd
          · decide
          · exact not_ws_of_isDigit hd
        rcases hd with rfl | hd
        · rw [parseVal_succ_other fuel (by decide) (by decide) (by decide) (by decide)
            (by decide) (by decide) (by decide)]
          rw [← List.cons_append, ← hc, parseNum_ratRepr q hden hstop]
        · rw [parseVal_succ_other fuel hws (ne_of_isDigit hd (by decide))
            (ne_of_isDigit hd (by decide)) (ne_of_isDigit hd (by decide))
            (ne_of_isDigit hd (by decide)) (ne_of_isDigit hd (by decide))
            (ne_of_isDigit hd (by decide))]
          rw [← List.cons_append, ← hc, parseNum_ratRepr q hden hstop]
      | jstr s =>
        have hs : ∀ c ∈ s, c ≠ dquote := hok
        have h1 : serV (.jstr s) ++ rest = dquote :: (s ++ dquote :: rest) := by
          show ((dquote :: s) ++ [dquote]) ++ rest = _
          simp
        rw [h1, parseVal_succ_str, parseStrBody_ser hs]
      | jarr l =>
        cases l with
        | nil => rfl
        | cons v vs =>
          simp only [serOkV] at hok
          have hf' : 2 * jsizeL (v :: vs) + 1 ≤ fuel := by
            simp only [jsize] at hf; omega
          have harr : serV (.jarr (v :: vs)) ++ rest
              = '[' :: (serElems (v :: vs) ++ ']' :: rest) := by
            show (('[' :: serElems (v :: vs)) ++ [']']) ++ rest = _
            simp
          rw [harr, parseVal_succ_arr]
          obtain ⟨c, cs, hcv, hws, hrb, _⟩ := serV_head v
          obtain ⟨Z, hZ⟩ : ∃ Z, serElems (v :: vs) = c :: Z := by
            cases vs with
            | nil => exact ⟨cs, by simp [serElems, hcv]⟩
            | cons v' vs' =>
              refine ⟨cs ++ ',' :: serElems (v' :: vs'), ?_⟩
              show (serV v) ++ ',' :: serElems (v' :: vs') = _
              rw [hcv]; simp
          rw [hZ, List.cons_append, skipWs_cons hws]
          split
          · rename_i heq
            injection heq with hh _
            exact absurd hh hrb
          · rw [← List.cons_append, ← hZ,
              ihl (v :: vs) rest (by simp) hok hf']
      | jobj l =>
        cases l with
        | nil => rfl
        | cons m tl =>
          obtain ⟨k, v⟩ := m
          simp only [serOkV] at hok
          have hf' : 2 * jsizeM ((k, v) :: tl) + 1 ≤ fuel := by
            simp only [jsize] at hf; omega
          have hobj : serV (.jobj ((k, v) :: tl)) ++ rest
              = '{' :: (serMems ((k, v) :: tl) ++ '}' :: rest) := by
            show (('{' :: serMems ((k, v) :: tl)) ++ ['}']) ++ rest = _
            simp
          rw [hobj, parseVal_succ_obj]
          obtain ⟨Z, hZ⟩ : ∃ Z, serMems ((k, v) :: tl) = dquote :: Z := by
            cases tl with
            | nil =>
              refine ⟨k ++ dquote :: ':' :: serV v, ?_⟩
              show (dquote :: k) ++ dquote :: ':' :: serV v = _
              simp
            | cons m' tl' =>
              refine ⟨k ++ dquote :: ':' :: (serV v ++ ',' :: serMems (m' :: tl')), ?_⟩
              show (dquote :: k) ++ dquote :: ':' :: serV v ++ ',' :: serMems (m' :: tl') = _
              simp
          rw [hZ, List.cons_append, skipWs_cons (by decide)]
          split
          · rename_i heq
            injection heq with hh _
            exact absurd hh (by decide)
          · rw [← List.cons_append, ← hZ,
              ihm ((k, v) :: tl) rest (by simp) hok hf']
    · cases l with
      | nil => exact absurd rfl hne
      | cons v vs =>
        simp only [serOkL] at hok
        obtain ⟨hokv, hokvs⟩ := hok
        have hfv : 2 * jsize v ≤ fuel := by
          simp only [jsizeL] at hf; omega
        cases vs with
        | nil =>
          have h1 : serElems [v] ++ ']' :: rest = serV v ++ ']' :: rest := by
            simp [serElems]
          have hv := ihv v (']' :: rest) hokv (by rfl) hfv
          have hsw : skipWs (']' :: rest) = ']' :: rest := skipWs_cons (by decide)
          rw [h1]
          simp only [parseElems, hv, hsw]
        | cons v' vs' =>
          have h1 : serElems (v :: v' :: vs') ++ ']' :: rest
              = serV v ++ ',' :: (serElems (v' :: vs') ++ ']' :: rest) := by
            show (serV v ++ ',' :: serElems (v' :: vs')) ++ ']' :: rest = _
            simp
          have hf' : 2 * jsizeL (v' :: vs') + 1 ≤ fuel := by
            have := jsize_pos v
            simp only [jsizeL] at hf ⊢; omega
          have hv := ihv v (',' :: (serElems (v' :: vs') ++ ']' :: rest)) hokv (by rfl) hfv
          have hsw : skipWs (',' :: (serElems (v' :: vs') ++ ']' :: rest))
              = ',' :: (serElems (v' :: vs') ++ ']' :: rest) := skipWs_cons (by decide)
          have hl := ihl (v' :: vs') rest (by simp) hokvs hf'
          rw [h1]
          simp only [parseElems, hv, hsw, hl]
    · cases ms with
      | nil => exact absurd rfl hne
      | cons m tl =>
        obtain ⟨k, v⟩ := m
        simp only [serOkM] at hok
        obtain ⟨hk, hokv, hoktl⟩ := hok
        have hfv : 2 * jsize v ≤ fuel := by
          simp only [jsizeM] at hf; omega
        cases tl with
        | nil =>
          have h1 : serMems [(k, v)] ++ '}' :: rest
              = dquote :: (k ++ dquote :: ':' :: (serV v ++ '}' :: rest)) := by
            show ((dquote :: k) ++ dquote :: ':' :: serV v) ++ '}' :: rest = _
            simp
          have hsb := @parseStrBody_ser k (':' :: (serV v ++ '}' :: rest)) hk
          have hsw1 : skipWs (':' :: (serV v ++ '}' :: rest))
              = ':' :: (serV v ++ '}' :: rest) := skipWs_cons (by decide)
          have hv := ihv v ('}' :: rest) hokv (by rfl) hfv
          have hsw2 : skipWs ('}' :: rest) = '}' :: rest := skipWs_cons (by decide)
          rw [h1]
          simp only [dquote] at hsb ⊢
          simp only [parseMems, hsb, hsw1, hv, hsw2]
        | cons m' tl' =>
          have h1 : serMems ((k, v) :: m' :: tl') ++ '}' :: rest
              = dquote :: (k ++ dquote :: ':' ::
                  (serV v ++ ',' :: (serMems (m' :: tl') ++ '}' :: rest))) := by
            show ((dquote :: k) ++ dquote :: ':' :: serV v ++ ',' :: serMems (m' :: tl'))
                ++ '}' :: rest = _
            simp
          have hf' : 2 * jsizeM (m' :: tl') + 1 ≤ fuel := by
            have := jsize_pos v
            simp only [jsizeM] at hf ⊢; omega
          obtain ⟨k', v'⟩ := m'
          obtain ⟨Z, hZ⟩ : ∃ Z, serMems ((k', v') :: tl') = dquote :: Z := by
            cases tl' with
            | nil =>
              refine ⟨k' ++ dquote :: ':' :: serV v', ?_⟩
              show (dquote :: k') ++ dquote :: ':' :: serV v' = _
              simp
            | cons m'' tl'' =>
              refine ⟨k' ++ dquote :: ':' :: (serV v' ++ ',' :: serMems (m'' :: tl'')), ?_⟩
              show (dquote :: k') ++ dquote :: ':' :: serV v' ++ ',' :: serMems (m'' :: tl'') = _
              simp
          have hsb := @parseStrBody_ser k
            (':' :: (serV v ++ ',' :: (serMems ((k', v') :: tl') ++ '}' :: rest))) hk
          have hsw1 : skipWs (':' :: (serV v ++ ',' :: (serMems ((k', v') :: tl') ++ '}' :: rest)))
              = ':' :: (serV v ++ ',' :: (serMems ((k', v') :: tl') ++ '}' :: rest)) :=
            skipWs_cons (by decide)
          have hv := ihv v (',' :: (serMems ((k', v') :: tl') ++ '}' :: rest)) hokv (by rfl) hfv
          have hsw2 : skipWs (',' :: (serMems ((k', v') :: tl') ++ '}' :: rest))
              = ',' :: (serMems ((k', v') :: tl') ++ '}' :: rest) := skipWs_cons (by decide)
          have hsw3 : skipWs (serMems ((k', v') :: tl') ++ '}' :: rest)
              = serMems ((k', v') :: tl') ++ '}' :: rest := by
            rw [hZ, List.cons_append]
            exact skipWs_cons (by decide)
          have hm := ihm ((k', v') :: tl') rest (by simp) hoktl hf'
          rw [h1]
          simp only [dquote] at hsb ⊢
          simp only [parseMems, hsb, hsw1, hv, hsw2, hsw3, hm]

/-! ## Failure of the parser on a truncated object -/

theorem serMems_head (m : List Char × JVal) (tl : List (List Char × JVal)) :
    ∃ Z, serMems (m :: tl) = dquote :: Z := by
  obtain ⟨k, v⟩ := m
  cases tl with
  | nil =>
    refine ⟨k ++ dquote :: ':' :: serV v, ?_⟩
    show (dquote :: k) ++ dquote :: ':' :: serV v = _
    simp
  | cons m' tl' =>
    refine ⟨k ++ dquote :: ':' :: (serV v ++ ',' :: serMems (m' :: tl')), ?_⟩
    show (dquote :: k) ++ dquote :: ':' :: serV v ++ ',' :: serMems (m' :: tl') = _
    simp

theorem parseMems_truncated : ∀ (ms : List (List Char × JVal)) (fuel : Nat), serOkM ms →
    2 * jsizeM ms + 1 ≤ fuel → parseMems fuel (serMems ms) = none := by
  intro ms
  induction ms with
  | nil =>
    intro fuel _ hf
    cases fuel with
    | zero => rfl
    | succ f => rfl
  | cons m tl ih =>
    obtain ⟨k, v⟩ := m
    intro fuel hok hf
    simp only [serOkM] at hok
    obtain ⟨hk, hokv, hoktl⟩ := hok
    cases fuel with
    | zero => rfl
    | succ f =>
      have hfv : 2 * jsize v ≤ f := by simp only [jsizeM] at hf; omega
      cases tl with
      | nil =>
        have h1 : serMems [(k, v)] = dquote :: (k ++ dquote :: ':' :: serV v) := by
          show (dquote :: k) ++ dquote :: ':' :: serV v = _
          simp
        have hv : parseVal f (serV v) = some (v, []) := by
          have := (parse_ser_round f).1 v [] hokv (by rfl) hfv
          rwa [List.append_nil] at this
        have hsb := @parseStrBody_ser k (':' :: serV v) hk
        have hsw1 : skipWs (':' :: serV v) = ':' :: serV v := skipWs_cons (by decide)
        have hsw0 : skipWs ([] : List Char) = [] := rfl
        rw [h1]
        simp only [dquote] at hsb ⊢
        simp only [parseMems, hsb, hsw1, hv, hsw0]
      | cons m' tl' =>
        have hf' : 2 * jsizeM (m' :: tl') + 1 ≤ f := by
          have := jsize_pos v
          simp only [jsizeM] at hf ⊢; omega
        have h1 : serMems ((k, v) :: m' :: tl')
            = dquote :: (k ++ dquote :: ':' :: (serV v ++ ',' :: serMems (m' :: tl'))) := by
          show (dquote :: k) ++ dquote :: ':' :: serV v ++ ',' :: serMems (m' :: tl') = _
          simp
        have hv : parseVal f (serV v ++ ',' :: serMems (m' :: tl'))
            = some (v, ',' :: serMems (m' :: tl')) :=
          (parse_ser_round f).1 v _ hokv (by rfl) hfv
        have hsb := @parseStrBody_ser k (':' :: (serV v ++ ',' :: serMems (m' :: tl'))) hk
        have hsw1 : skipWs (':' :: (serV v ++ ',' :: serMems (m' :: tl')))
            = ':' :: (serV v ++ ',' :: serMems (m' :: tl')) := skipWs_cons (by decide)
        have hsw2 : skipWs (',' :: serMems (m' :: tl')) = ',' :: serMems (m' :: tl') :=
          skipWs_cons (by decide)
        obtain ⟨Z, hZ⟩ := serMems_head m' tl'
        have hsw3 : skipWs (serMems (m' :: tl')) = serMems (m' :: tl') := by
          rw [hZ]
          exact skipWs_cons (by decide)
        have htl := ih f hoktl hf'
        rw [h1]
        simp only [dquote] at hsb ⊢
        simp only [parseMems, hsb, hsw1, hv, hsw2, hsw3, htl]

theorem parseVal_truncated_obj (ms : List (List Char × JVal)) (fuel : Nat)
    (hok : serOkM ms) (hf : 2 * jsizeM ms + 2 ≤ fuel) :
    parseVal fuel ('{' :: serMems ms) = none := by
  cases fuel with
  | zero => rfl
  | succ f =>
    rw [parseVal_succ_obj]
    cases ms with
    | nil =>
      have h1 : parseMems f ([] : List Char) = none :=
        parseMems_truncated [] f trivial (by simp only [jsizeM]; omega)
      simp only [serMems, skipWs, List.dropWhile_nil, h1]
    | cons m tl =>
      obtain ⟨Z, hZ⟩ := serMems_head m tl
      rw [hZ, skipWs_cons (by decide)]
      split
      · rename_i heq
        injection heq with hh _
        exact absurd hh (by decide)
      · rw [← hZ, parseMems_truncated (m :: tl) f hok (by omega)]

/-! ## `tryLoads` on serialized and truncated objects -/

theorem tryLoads_ser (v : JVal) (hok : serOkV v) : tryLoads (serV v) = some v := by
  unfold tryLoads
  have hf : 2 * jsize v ≤ 2 * (serV v).length + 2 := by
    have := jsize_le_serV v
    omega
  have h := (parse_ser_round (2 * (serV v).length + 2)).1 v [] hok (by rfl) hf
  rw [List.append_nil] at h
  rw [h]
  rfl

theorem tryLoads_truncated (ms : List (List Char × JVal)) (hok : serOkM ms) :
    tryLoads ('{' :: serMems ms) = none := by
  unfold tryLoads
  have hlen : jsizeM ms ≤ 1 + (serMems ms).length := jsizeM_le_serMems ms
  have hf : 2 * jsizeM ms + 2 ≤ 2 * ('{' :: serMems ms).length + 2 := by
    simp only [List.length_cons]
    omega
  rw [parseVal_truncated_obj ms _ hok hf]

/-! ## Preprocessing is the identity on brace-delimited text -/

theorem pyStrip_no_ws {s : List Char} {c1 c2 : Char} (h1 : s.head? = some c1)
    (hw1 : isWsChar c1 = false) (h2 : s.getLast? = some c2) (hw2 : isWsChar c2 = false) :
    pyStrip s = s := by
  unfold pyStrip
  cases s with
  | nil => cases h1
  | cons c t =>
    simp only [List.head?_cons, Option.some.injEq] at h1
    subst h1
    rw [List.dropWhile_cons_of_neg (by simp [hw1])]
    have hrev : (c :: t).reverse.head? = some c2 := by
      rw [List.head?_reverse]; exact h2
    cases hr : (c :: t).reverse with
    | nil => rw [hr] at hrev; cases hrev
    | cons d u =>
      rw [hr] at hrev
      simp only [List.head?_cons, Option.some.injEq] at hrev
      subst hrev
      rw [List.dropWhile_cons_of_neg (by simp [hw2]), ← hr, List.reverse_reverse]

theorem stripFences_no_fence {t : List Char} {c1 c2 : Char} (h1 : t.head? = some c1)
    (hc1 : c1 ≠ btick) (h2 : t.getLast? = some c2) (hc2 : c2 ≠ btick) :
    stripFences t = t := by
  unfold stripFences
  have hx : ¬ t.take 3 = [btick, btick, btick] := by
    cases t with
    | nil => simp
    | cons c ts =>
      simp only [List.head?_cons, Option.some.injEq] at h1
      subst h1
      intro heq
      rw [List.take_succ_cons] at heq
      injection heq with hh _
      exact absurd hh hc1
  rw [if_neg hx]
  have hy : ¬ t.drop (t.length - 3) = [btick, btick, btick] := by
    intro heq
    have hne : t.drop (t.length - 3) ≠ [] := by rw [heq]; simp
    have hgl : t.getLast? = (t.drop (t.length - 3)).getLast? := by
      conv_lhs => rw [← List.take_append_drop (t.length - 3) t]
      exact List.getLast?_append_of_ne_nil _ hne
    rw [heq, h2] at hgl
    exact hc2 (Option.some.inj (hgl.trans (by rfl)))
  rw [if_neg hy]

theorem prepro_obj {raw : List Char} (hh : raw.head? = some '{')
    (hl : raw.getLast? = some '}') : prepro raw = raw := by
  unfold prepro
  rw [pyStrip_no_ws hh (by decide) hl (by decide)]
  exact stripFences_no_fence hh (by decide) hl (by decide)

theorem firstIdxOf_head {c : Char} {t : List Char} : firstIdxOf c (c :: t) = some 0 := by
  unfold firstIdxOf
  rw [List.findIdx?_cons]
  simp

theorem lastIdxOf_last {s : List Char} {c : Char} (h : s.getLast? = some c) :
    lastIdxOf c s = some (s.length - 1) := by
  unfold lastIdxOf
  have hrev : s.reverse.head? = some c := by rw [List.head?_reverse]; exact h
  cases hr : s.reverse with
  | nil => rw [hr] at hrev; cases hrev
  | cons d u =>
    rw [hr] at hrev
    simp only [List.head?_cons, Option.some.injEq] at hrev
    subst hrev
    rw [List.findIdx?_cons]
    simp

/-! ## The single-repair recovery of `parse_llm_json_response` -/

/-- C4 (amended): for every reply that is the serialization of a JSON
object with exactly its one trailing closing brace removed, *provided
the truncated text still ends in a closing brace* (as for any object
whose last member value is itself an object), `parse_llm_json_response`
succeeds with the intended object — the first parse attempt fails and
the single repair appending one closing brace recovers it.  Without
that proviso the claim is false (see the counterexample): a flat object
loses its only brace and the parser raises `no JSON object found`. -/
theorem parse_llm_repair (ms : PyDict) (hok : serOkM ms)
    (hlast : (serV (.jobj ms)).dropLast.getLast? = some '}') :
    parse_llm_json_response ((serV (.jobj ms)).dropLast) = .ok (.jobj ms) := by
  have hser : serV (.jobj ms) = ('{' :: serMems ms) ++ ['}'] := rfl
  have hdrop : (serV (.jobj ms)).dropLast = '{' :: serMems ms := by
    rw [hser, List.dropLast_concat]
  rw [hdrop] at hlast ⊢
  have hh : ('{' :: serMems ms).head? = some '{' := rfl
  have hokv : serOkV (.jobj ms) := hok
  have harith : ('{' :: serMems ms).length - 1 + 1 - 0 = ('{' :: serMems ms).length := by
    simp only [List.length_cons]
    omega
  have harith2 : ('{' :: serMems ms).length - 1 + 1 = ('{' :: serMems ms).length := by
    simp only [List.length_cons]
    omega
  have hrepair : ('{' :: serMems ms) ++ ['}'] = serV (.jobj ms) := hser.symm
  simp only [parse_llm_json_response, prepro_obj hh hlast, firstIdxOf_head,
    lastIdxOf_last hlast, Nat.not_lt_zero, if_false, List.drop_zero, Nat.sub_zero,
    harith, harith2, List.take_length, tryLoads_truncated ms hok, hrepair,
    tryLoads_ser (.jobj ms) hokv]

/-! ## Stability of the sort under key-uniform filters -/

theorem filter_orderedInsert_pos {α : Type} (r : α → α → Prop) [DecidableRel r]
    (p : α → Bool) (a : α) (ha : p a = true) (h : ∀ b, p b = true → r a b) :
    ∀ l : List α, (List.orderedInsert r a l).filter p = a :: l.filter p := by
  intro l
  induction l with
  | nil => simp [List.orderedInsert, ha]
  | cons b t ih =>
    by_cases hr : r a b
    · simp [List.orderedInsert, if_pos hr, List.filter_cons, ha]
    · have hb : p b = false := by
        cases hpb : p b with
        | false => rfl
        | true => exact absurd (h b hpb) hr
      simp only [List.orderedInsert, if_neg hr, List.filter_cons, hb, Bool.false_eq_true,
        if_false, ih]

theorem filter_orderedInsert_neg {α : Type} (r : α → α → Prop) [DecidableRel r]
    (p : α → Bool) (a : α) (ha : p a = false) :
    ∀ l : List α, (List.orderedInsert r a l).filter p = l.filter p := by
  intro l
  induction l with
  | nil => simp [List.orderedInsert, ha]
  | cons b t ih =>
    by_cases hr : r a b
    · simp [List.orderedInsert, if_pos hr, List.filter_cons, ha]
    · simp [List.orderedInsert, if_neg hr, List.filter_cons, ih]

theorem filter_insertionSort {α : Type} (r : α → α → Prop) [DecidableRel r]
    (p : α → Bool) (hp : ∀ x y, p x = true → p y = true → r x y) :
    ∀ l : List α, (List.insertionSort r l).filter p = l.filter p := by
  intro l
  induction l with
  | nil => rfl
  | cons a t ih =>
    simp only [List.insertionSort]
    cases hpa : p a with
    | true =>
      rw [filter_orderedInsert_pos r p a hpa (fun b hb => hp a b hpa hb), ih,
        List.filter_cons, hpa]
      simp
    | false =>
      rw [filter_orderedInsert_neg r p a hpa, ih, List.filter_cons, hpa]
      simp

/-! ## The no-object error path of the response parser -/

theorem firstIdxOf_eq_none {c : Char} {s : List Char} (h : c ∉ s) :
    firstIdxOf c s = none := by
  unfold firstIdxOf
  rw [List.findIdx?_eq_none_iff]
  intro x hx
  cases hbe : x == c with
  | false => rfl
  | true => exact absurd (beq_iff_eq.mp hbe ▸ hx) h

theorem lastIdxOf_eq_none {c : Char} {s : List Char} (h : c ∉ s) :
    lastIdxOf c s = none := by
  unfold lastIdxOf
  have : List.findIdx? (fun x => x == c) s.reverse = none := by
    rw [List.findIdx?_eq_none_iff]
    intro x hx
    cases hbe : x == c with
    | false => rfl
    | true => exact absurd (beq_iff_eq.mp hbe ▸ List.mem_reverse.mp hx) h
  rw [this]

/-! ## Claims -/

/-- C1: for every input list of N candidate mappings and every rubric
config, `evaluate_candidates_with_llm` returns a list of exactly N
canonical result records, regardless of how many per-candidate scorer
invocations or parses fail. -/
theorem evaluate_cardinality (candidates : List PyDict) (config : PyDict)
    (llm_client : List Char → Except (List Char) (List Char)) :
    (evaluate_candidates_with_llm candidates config llm_client).length = candidates.length := by
  unfold evaluate_candidates_with_llm
  rw [(List.perm_insertionSort resLE _).length_eq]
  unfold evalResults
  exact List.length_map _ _

/-- C2: the list returned by `evaluate_candidates_with_llm` is sorted by
descending `llm_score`; every absent-score result appears strictly after
every numerically scored result; and within each tied score class (a
fixed numeric score, or absence) the original input order — the order of
the pre-sort `evalResults` list — is preserved, stated via `filter`. -/
theorem evaluate_sorted (candidates : List PyDict) (config : PyDict)
    (llm_client : List Char → Except (List Char) (List Char))
    (out : List CanonicalResult)
    (hout : out = evaluate_candidates_with_llm candidates config llm_client) :
    (∀ (i j : Nat) (hi : i < out.length) (hj : j < out.length), i < j →
      ∀ a b : Rat, (out.get ⟨i, hi⟩).llm_score = some a →
        (out.get ⟨j, hj⟩).llm_score = some b → b ≤ a) ∧
    (∀ (i j : Nat) (hi : i < out.length) (hj : j < out.length), i < j →
      (out.get ⟨i, hi⟩).llm_score = none → (out.get ⟨j, hj⟩).llm_score = none) ∧
    (∀ q : Rat, out.filter (fun r => decide (r.llm_score = some q))
      = (evalResults llm_client config candidates).filter
          (fun r => decide (r.llm_score = some q))) ∧
    (out.filter (fun r => r.llm_score.isNone)
      = (evalResults llm_client config candidates).filter
          (fun r => r.llm_score.isNone)) := by
  subst hout
  have hsorted : List.Sorted resLE (evaluate_candidates_with_llm candidates config llm_client) :=
    List.sorted_insertionSort resLE _
  have hpair := List.pairwise_iff_getElem.mp hsorted
  refine ⟨?_, ?_, ?_, ?_⟩
  · intro i j hi hj hij a b hia hjb
    have hr := hpair i j hi hj hij
    rw [List.get_eq_getElem] at hia hjb
    rcases hr with ⟨h1, h2⟩ | ⟨h1, h2⟩
    · simp [sortKey, hjb] at h2
    · simp only [sortKey, hia, hjb, Option.getD_some, Option.isNone_some] at h2
      linarith
  · intro i j hi hj hij hnone
    have hr := hpair i j hi hj hij
    rw [List.get_eq_getElem] at hnone ⊢
    rcases hr with ⟨h1, h2⟩ | ⟨h1, h2⟩
    · simp [sortKey, hnone] at h1
    · simp only [sortKey, hnone, Option.isNone_none] at h1
      exact Option.isNone_iff_eq_none.mp h1.symm
  · intro q
    unfold evaluate_candidates_with_llm
    refine filter_insertionSort resLE _ ?_ _
    intro x y hx hy
    simp only [decide_eq_true_eq] at hx hy
    unfold resLE sortKey
    rw [hx, hy]
    right
    exact ⟨rfl, le_refl _⟩
  · unfold evaluate_candidates_with_llm
    refine filter_insertionSort resLE _ ?_ _
    intro x y hx hy
    have hx2 : x.llm_score = none := Option.isNone_iff_eq_none.mp hx
    have hy2 : y.llm_score = none := Option.isNone_iff_eq_none.mp hy
    unfold resLE sortKey
    rw [hx2, hy2]
    right
    exact ⟨rfl, le_refl _⟩

set_option maxRecDepth 100000 in
set_option maxHeartbeats 4000000 in
/-- C2 witness: on two concrete candidates scored 3 and 5, the sorted
output has the 5-score first, so the theorem instance yields `3 ≤ 5`. -/
theorem evaluate_sorted_witness : (3 : Rat) ≤ 5 := by
  have h := evaluate_sorted [exCand2, exCand1] [] exClientScored
    (evaluate_candidates_with_llm [exCand2, exCand1] [] exClientScored) rfl
  refine h.1 0 1 ?_ ?_ (by norm_num) 5 3 ?_ ?_
  · with_unfolding_all decide
  · with_unfolding_all decide
  · with_unfolding_all rfl
  · with_unfolding_all rfl

/-- C10: every record returned by `evaluate_candidates_with_llm`, on the
success and on the failure path alike, carries the `id` and `name`
values of its originating candidate (Python `None`, i.e. `jnull`, when
absent), so the multiset of (id, name) pairs of the output is exactly
that of the input. -/
theorem evaluate_identity_perm (candidates : List PyDict) (config : PyDict)
    (llm_client : List Char → Except (List Char) (List Char)) :
    ((evaluate_candidates_with_llm candidates config llm_client).map
        (fun r => (r.id, r.name))).Perm
      (candidates.map (fun c =>
        ((pyGet c (strL "id")).getD .jnull, (pyGet c (strL "name")).getD .jnull))) := by
  have hpt : ∀ c : PyDict,
      ((processOne llm_client config c).id, (processOne llm_client config c).name)
        = ((pyGet c (strL "id")).getD .jnull, (pyGet c (strL "name")).getD .jnull) := by
    intro c
    unfold processOne
    cases h : attemptCandidate llm_client config c with
    | error e => rfl
    | ok pr =>
      obtain ⟨raw, parsed⟩ := pr
      rfl
  have hmapeq : (evalResults llm_client config candidates).map (fun r => (r.id, r.name))
      = candidates.map (fun c =>
          ((pyGet c (strL "id")).getD .jnull, (pyGet c (strL "name")).getD .jnull)) := by
    unfold evalResults
    rw [List.map_map]
    exact List.map_congr_left (fun c _ => hpt c)
  unfold evaluate_candidates_with_llm
  refine (List.Perm.map _ (List.perm_insertionSort resLE _)).trans ?_
  rw [hmapeq]

/-- C3: a failing scorer call or parse for one candidate does not abort
the run: that candidate's slot in the result list is the canonical error
record (absent scores, `passed_required = false`, exactly one reason
string naming the error), the error record reaches the final output, and
every other candidate's record is exactly what a run without that
failure would produce. -/
theorem evaluate_failure_isolation
    (llm_client llm_client2 : List Char → Except (List Char) (List Char))
    (config : PyDict) (candidates : List PyDict) (i : Nat) (hi : i < candidates.length)
    (e : List Char)
    (hfail : attemptCandidate llm_client config (candidates.get ⟨i, hi⟩) = .error e)
    (hagree : ∀ (j : Nat) (hj : j < candidates.length), j ≠ i →
      attemptCandidate llm_client config (candidates.get ⟨j, hj⟩)
        = attemptCandidate llm_client2 config (candidates.get ⟨j, hj⟩)) :
    (evalResults llm_client config candidates).length = candidates.length ∧
    (evalResults llm_client config candidates).get? i = some
      { id := (pyGet (candidates.get ⟨i, hi⟩) (strL "id")).getD .jnull
        name := (pyGet (candidates.get ⟨i, hi⟩) (strL "name")).getD .jnull
        llm_score := none
        score_10 := none
        breakdown := []
        passed_required := false
        reasons := [.jstr (strL "LLM error: " ++ e)]
        raw_llm_output := none
        explanation := .jnull } ∧
    (∀ j : Nat, j ≠ i →
      (evalResults llm_client config candidates).get? j
        = (evalResults llm_client2 config candidates).get? j) ∧
    mkErrResult (candidates.get ⟨i, hi⟩) e
      ∈ evaluate_candidates_with_llm candidates config llm_client := by
  refine ⟨?_, ?_, ?_, ?_⟩
  · unfold evalResults
    exact List.length_map _ _
  · unfold evalResults
    rw [List.get?_map, List.get?_eq_get hi]
    simp only [Option.map_some']
    have hp : processOne llm_client config (candidates.get ⟨i, hi⟩) = mkErrResult (candidates.get ⟨i, hi⟩) e := by
      unfold processOne
      rw [hfail]
    rw [hp]
    rfl
  · intro j hne
    by_cases hj : j < candidates.length
    · unfold evalResults
      rw [List.get?_map, List.get?_map, List.get?_eq_get hj]
      simp only [Option.map_some']
      have hp : processOne llm_client config (candidates.get ⟨j, hj⟩)
          = processOne llm_client2 config (candidates.get ⟨j, hj⟩) := by
        unfold processOne
        rw [hagree j hj hne]
      rw [hp]
    · have h1 : candidates.length ≤ j := le_of_not_lt hj
      unfold evalResults
      rw [List.get?_eq_none.mpr (by rw [List.length_map]; exact h1),
        List.get?_eq_none.mpr (by rw [List.length_map]; exact h1)]
  · have hmm : mkErrResult (candidates.get ⟨i, hi⟩) e ∈ evalResults llm_client config candidates := by
      unfold evalResults
      refine List.mem_map.mpr ⟨candidates.get ⟨i, hi⟩, List.get_mem _ _ _, ?_⟩
      unfold processOne
      rw [hfail]
    unfold evaluate_candidates_with_llm
    exact ((List.perm_insertionSort resLE _).mem_iff).mpr hmm

set_option maxRecDepth 100000 in
set_option maxHeartbeats 4000000 in
/-- C3 witness: three concrete candidates where the scorer raises a
transport error on the second — its slot is the error record and the
first and third records agree with a failure-free run. -/
theorem evaluate_failure_isolation_witness :
    (evalResults exClientFail [] [exCand1, exCand2, exCand3]).get? 1 = some
      { id := .jnum 2
        name := .jstr (strL "Bob Jones")
        llm_score := none
        score_10 := none
        breakdown := []
        passed_required := false
        reasons := [.jstr (strL "LLM error: connection reset")]
        raw_llm_output := none
        explanation := .jnull } ∧
    (evalResults exClientFail [] [exCand1, exCand2, exCand3]).get? 0
      = (evalResults exClientScored [] [exCand1, exCand2, exCand3]).get? 0 ∧
    (evalResults exClientFail [] [exCand1, exCand2, exCand3]).get? 2
      = (evalResults exClientScored [] [exCand1, exCand2, exCand3]).get? 2 := by
  have h1f : attemptCandidate exClientFail [] exCand1
      = .ok (exReplyA, .jobj [(strL "score", .jnum 5), (strL "passed_required", .jbool true)]) := by
    with_unfolding_all rfl
  have h1s : attemptCandidate exClientScored [] exCand1
      = .ok (exReplyA, .jobj [(strL "score", .jnum 5), (strL "passed_required", .jbool true)]) := by
    with_unfolding_all rfl
  have h3f : attemptCandidate exClientFail [] exCand3
      = .ok (exReplyB, .jobj [(strL "score", .jnum 3), (strL "passed_required", .jbool true)]) := by
    with_unfolding_all rfl
  have h3s : attemptCandidate exClientScored [] exCand3
      = .ok (exReplyB, .jobj [(strL "score", .jnum 3), (strL "passed_required", .jbool true)]) := by
    with_unfolding_all rfl
  have h := evaluate_failure_isolation exClientFail exClientScored [] [exCand1, exCand2, exCand3]
    1 (by decide) (strL "connection reset")
    (by with_unfolding_all rfl)
    (by
      intro j hj hne
      rcases j with _ | _ | _ | j
      · exact h1f.trans h1s.symm
      · exact absurd rfl hne
      · exact h3f.trans h3s.symm
      · simp only [List.length_cons, List.length_nil] at hj
        omega)
  refine ⟨h.2.1.trans (by with_unfolding_all rfl), h.2.2.1 0 (by decide),
    h.2.2.1 2 (by decide)⟩

/-- C4 counterexample: the flat object reply whose single closing brace
was removed is a well-formed JSON object minus exactly one trailing
brace (appending the brace makes it load), yet `parse_llm_json_response`
raises `no JSON object found` instead of succeeding — the claim as
stated, for *every* truncated object reply, is false. -/
theorem parse_llm_repair_counterexample :
    tryLoads (strL "\x7b\"a\": 1" ++ ['}']) = some (.jobj [(strL "a", .jnum 1)]) ∧
    parse_llm_json_response (strL "\x7b\"a\": 1") = .error noObjMsg := by
  constructor
  · with_unfolding_all rfl
  · with_unfolding_all rfl

/-- C4 witness: the nested object `\x7b"a": \x7b"b": 1\x7d\x7d` with its
trailing brace removed is recovered exactly by the single repair. -/
theorem parse_llm_repair_witness :
    parse_llm_json_response ((serV (.jobj [(strL "a", .jobj [(strL "b", .jnum 1)])])).dropLast)
      = .ok (.jobj [(strL "a", .jobj [(strL "b", .jnum 1)])]) := by
  refine parse_llm_repair _ ⟨by decide, ?_, trivial⟩ (by with_unfolding_all rfl)
  show serOkM [(strL "b", .jnum 1)]
  refine ⟨by decide, ?_, trivial⟩
  show (1 : Rat).den = 1
  rfl

/-- C5: for every reply string that, after whitespace stripping and
fence stripping, contains no opening brace, or no closing brace, or
whose last closing brace occurs before its first opening brace,
`parse_llm_json_response` raises the `no JSON object found` error and
fabricates no result. -/
theorem parse_llm_no_object (raw : List Char)
    (h : '{' ∉ prepro raw ∨ '}' ∉ prepro raw ∨
      ∃ i j, firstIdxOf '{' (prepro raw) = some i ∧ lastIdxOf '}' (prepro raw) = some j ∧
        j < i) :
    parse_llm_json_response raw = .error noObjMsg := by
  rcases h with h | h | ⟨i, j, hi, hj, hij⟩
  · have hf := firstIdxOf_eq_none h
    cases hl : lastIdxOf '}' (prepro raw) with
    | none => simp only [parse_llm_json_response, hf, hl]
    | some j => simp only [parse_llm_json_response, hf, hl]
  · have hl := lastIdxOf_eq_none h
    cases hf : firstIdxOf '{' (prepro raw) with
    | none => simp only [parse_llm_json_response, hf, hl]
    | some i => simp only [parse_llm_json_response, hf, hl]
  · simp only [parse_llm_json_response, hi, hj, if_pos hij]

/-- C5 witness: a reply with no braces at all fails with the
`no JSON object found` error. -/
theorem parse_llm_no_object_witness :
    parse_llm_json_response (strL "no json here at all") = .error noObjMsg :=
  parse_llm_no_object _ (Or.inl (by decide))

/-- Reduction of the `reasons` field of the canonicalization step. -/
theorem canonicalizeResult_reasons (cand : PyDict) (raw : List Char) (l : PyDict) :
    (canonicalizeResult cand raw (.jobj l)).reasons
      = (match (match pyGet l (strL "reasons") with
                | some v => if pyTruthy v then v else .jarr []
                | none => .jarr []) with
         | .jarr xs => xs
         | w => [.jstr (pyStr w)]) := rfl

/-- C6 (amended): in canonicalization a `reasons` value that is a
sequence is kept as-is; a *truthy* non-sequence value is wrapped into a
single-element sequence; but a *falsy* non-sequence value (`null`,
`false`, `0`, the empty string) is replaced by the empty sequence — the
unconditional `never silently replaced by an empty sequence` reading is
false (see the counterexample), because the source computes
`parsed.get("reasons") or []`. -/
theorem reasons_canonicalization (cand : PyDict) (raw : List Char) (l : PyDict) (v : JVal)
    (h : pyGet l (strL "reasons") = some v) :
    (∀ xs, v = .jarr xs → (canonicalizeResult cand raw (.jobj l)).reasons = xs) ∧
    ((∀ xs, v ≠ .jarr xs) → pyTruthy v = true →
      (canonicalizeResult cand raw (.jobj l)).reasons = [.jstr (pyStr v)]) ∧
    ((∀ xs, v ≠ .jarr xs) → pyTruthy v = false →
      (canonicalizeResult cand raw (.jobj l)).reasons = []) := by
  refine ⟨?_, ?_, ?_⟩
  · rintro xs rfl
    rw [canonicalizeResult_reasons, h]
    cases xs with
    | nil => rfl
    | cons y ys => rfl
  · intro hnot htrue
    rw [canonicalizeResult_reasons, h]
    simp only [htrue, if_true]
  · intro hnot hfalse
    rw [canonicalizeResult_reasons, h]
    simp only [hfalse]
    rfl

/-- C6 counterexample: a falsy non-sequence `reasons` value (the empty
string) is silently replaced by the empty sequence instead of being
wrapped into a single-element sequence. -/
theorem reasons_canonicalization_counterexample :
    (canonicalizeResult [] [] (.jobj [(strL "reasons", .jstr [])])).reasons = [] ∧
    ([] : List JVal) ≠ [.jstr (pyStr (.jstr []))] := by
  constructor
  · rfl
  · simp

/-- C6 witness: a sequence `reasons` value is kept as-is, and a truthy
non-sequence value (a non-empty string) is wrapped. -/
theorem reasons_canonicalization_witness :
    (canonicalizeResult [] [] (.jobj [(strL "reasons", .jarr [.jstr (strL "ok")])])).reasons
      = [.jstr (strL "ok")] ∧
    (canonicalizeResult [] [] (.jobj [(strL "reasons", .jstr (strL "solid"))])).reasons
      = [.jstr (strL "solid")] := by
  have h1 := (reasons_canonicalization [] [] [(strL "reasons", .jarr [.jstr (strL "ok")])]
    (.jarr [.jstr (strL "ok")]) (by rfl)).1 [.jstr (strL "ok")] rfl
  have h2 := (reasons_canonicalization [] [] [(strL "reasons", .jstr (strL "solid"))]
    (.jstr (strL "solid")) (by rfl)).2.1 (fun xs hxs => JVal.noConfusion hxs) (by rfl)
  exact ⟨h1, h2⟩

/-- Reduction of the two score fields of the canonicalization step. -/
theorem canonicalizeResult_scores (cand : PyDict) (raw : List Char) (l : PyDict) :
    (canonicalizeResult cand raw (.jobj l)).llm_score
      = (match pyGet l (strL "score") with
         | some v => if pyIsNumber v then some (pyFloat v) else none
         | none => none) ∧
    (canonicalizeResult cand raw (.jobj l)).score_10
      = (match pyGet l (strL "score") with
         | some v => if pyIsNumber v then some (pyFloat v * 10) else none
         | none => none) := ⟨rfl, rfl⟩

/-- C7 (amended): when `score` is a number, `llm_score` is that value
and `score_10` is ten times it, computed locally; when `score` is a
boolean, CPython's `isinstance(score, (int, float))` is *true* (`bool`
subclasses `int`), so `true` yields `1.0`/`10.0` and `false` yields
`0.0`/`0.0` — not absence, contrary to the claim (see the
counterexample); when `score` is absent or any other non-numeric value
(string, null, array, object), both fields are absent, not zero. -/
theorem score_canonicalization (cand : PyDict) (raw : List Char) (l : PyDict) :
    (∀ q : Rat, pyGet l (strL "score") = some (.jnum q) →
      (canonicalizeResult cand raw (.jobj l)).llm_score = some q ∧
      (canonicalizeResult cand raw (.jobj l)).score_10 = some (q * 10)) ∧
    (∀ b : Bool, pyGet l (strL "score") = some (.jbool b) →
      (canonicalizeResult cand raw (.jobj l)).llm_score = some (if b then 1 else 0) ∧
      (canonicalizeResult cand raw (.jobj l)).score_10
        = some ((if b then (1 : Rat) else 0) * 10)) ∧
    (pyGet l (strL "score") = none →
      (canonicalizeResult cand raw (.jobj l)).llm_score = none ∧
      (canonicalizeResult cand raw (.jobj l)).score_10 = none) ∧
    (∀ v, pyGet l (strL "score") = some v → pyIsNumber v = false →
      (canonicalizeResult cand raw (.jobj l)).llm_score = none ∧
      (canonicalizeResult cand raw (.jobj l)).score_10 = none) := by
  obtain ⟨hl, hs⟩ := canonicalizeResult_scores cand raw l
  refine ⟨?_, ?_, ?_, ?_⟩
  · intro q hq
    rw [hl, hs, hq]
    exact ⟨rfl, rfl⟩
  · intro b hb
    rw [hl, hs, hb]
    exact ⟨rfl, rfl⟩
  · intro h0
    rw [hl, hs, h0]
    exact ⟨rfl, rfl⟩
  · intro v hv hnum
    rw [hl, hs, hv]
    constructor <;> simp [hnum]

/-- C7 counterexample: a boolean `score` of `true` yields
`llm_score = 1.0` (and `score_10 = 10.0`), not absence as claimed,
because `isinstance(True, (int, float))` holds in CPython. -/
theorem score_canonicalization_counterexample :
    (canonicalizeResult [] [] (.jobj [(strL "score", .jbool true)])).llm_score = some 1 ∧
    (canonicalizeResult [] [] (.jobj [(strL "score", .jbool true)])).score_10 = some 10 ∧
    some (1 : Rat) ≠ none := by
  refine ⟨by with_unfolding_all rfl, by with_unfolding_all rfl, by simp⟩

/-- C7 witness: a numeric score yields the value and ten times it; a
string score yields absence. -/
theorem score_canonicalization_witness :
    (canonicalizeResult [] [] (.jobj [(strL "score", .jnum (82 / 100))])).llm_score
      = some ((82 : Rat) / 100) ∧
    (canonicalizeResult [] [] (.jobj [(strL "score", .jnum (82 / 100))])).score_10
      = some ((82 : Rat) / 100 * 10) ∧
    (canonicalizeResult [] [] (.jobj [(strL "score", .jstr (strL "high"))])).llm_score
      = none := by
  have h1 := (score_canonicalization [] [] [(strL "score", .jnum (82 / 100))]).1
    (82 / 100) (by rfl)
  have h2 := (score_canonicalization [] [] [(strL "score", .jstr (strL "high"))]).2.2.2
    (.jstr (strL "high")) (by rfl) (by rfl)
  exact ⟨h1.1, h1.2, h2.1⟩

/-- C8 (amended): the startup check `is_ollama_installed` passes exactly
when the auth token and the account identifier are both nonempty, and a
run that passes it can never fail a scorer call with a
missing-account or missing-token configuration error; but the *model*
identifier is not checked at startup, so a passing run still fails each
scorer call with the missing-model configuration error whenever the
model identifier is absent (see the counterexample); when the model
identifier is present, config resolution succeeds. -/
theorem config_check_coverage (env : BackendEnv) (h : is_ollama_installed env = true) :
    (env.cloudflare_api_token ≠ [] ∧ env.cloudflare_account_id ≠ []) ∧
    (∀ model : Option (List Char),
      get_cloudflare_config model env
          ≠ .error (strL "Missing CLOUDFLARE_ACCOUNT_ID environment variable.") ∧
      get_cloudflare_config model env
          ≠ .error (strL "Missing CLOUDFLARE_API_TOKEN environment variable.")) ∧
    (env.cloudflare_model ≠ [] →
      get_cloudflare_config none env
        = .ok (env.cloudflare_account_id, env.cloudflare_api_token, env.cloudflare_model)) := by
  simp only [is_ollama_installed, Bool.and_eq_true, bne_iff_ne, ne_eq] at h
  obtain ⟨ht, ha⟩ := h
  refine ⟨⟨ht, ha⟩, ?_, ?_⟩
  · intro model
    simp only [get_cloudflare_config, if_neg ha, if_neg ht]
    constructor <;> split <;>
      first
        | (intro hc; injection hc with hm; exact absurd hm (by decide))
        | (intro hc; exact Except.noConfusion hc)
  · intro hm
    simp only [get_cloudflare_config, if_neg ha, if_neg ht, if_neg hm]

/-- C8 counterexample: with the token and account set but the model
identifier empty, the startup check passes, yet config resolution for a
scorer call fails with the missing-model configuration error — so not
every missing backend configuration value is caught at startup. -/
theorem config_check_counterexample :
    is_ollama_installed ⟨strL "tok", strL "acct", []⟩ = true ∧
    get_cloudflare_config none ⟨strL "tok", strL "acct", []⟩
      = .error
        (strL "Cloudflare model name is empty. Set CLOUDFLARE_MODEL or pass model explicitly.") := by
  exact ⟨rfl, rfl⟩

/-- C8 witness: with all three values set, the passing startup check is
followed by a successful config resolution. -/
theorem config_check_coverage_witness :
    get_cloudflare_config none ⟨strL "tok", strL "acct", strL "llama"⟩
      = .ok (strL "acct", strL "tok", strL "llama") :=
  (config_check_coverage ⟨strL "tok", strL "acct", strL "llama"⟩ (by rfl)).2.2 (by decide)

/-- C9: `load_pdf_binary` is the identity on byte inputs that begin with
the `%PDF-` magic header, and raises a `ValueError` on every byte input
that does not. -/
theorem load_pdf_binary_bytes (b : List Nat) :
    (b.take 5 = pdfMagic → load_pdf_binary (.byteslike b) = .ok b) ∧
    (b.take 5 ≠ pdfMagic → load_pdf_binary (.byteslike b)
      = .error (.valueError
          (strL "Provided data does not appear to be a PDF (missing %PDF- header)"))) := by
  constructor
  · intro h
    simp only [load_pdf_binary, is_pdf_bytes]
    rw [if_pos (by simp [h])]
  · intro h
    simp only [load_pdf_binary, is_pdf_bytes]
    rw [if_neg (by simp [h])]

/-- C9 witness: a header-carrying byte string is returned unchanged; a
byte string without the header raises the validation error. -/
theorem load_pdf_binary_bytes_witness :
    load_pdf_binary (.byteslike [37, 80, 68, 70, 45, 99, 100]) = .ok [37, 80, 68, 70, 45, 99, 100] ∧
    load_pdf_binary (.byteslike [1, 2, 3])
      = .error (.valueError
          (strL "Provided data does not appear to be a PDF (missing %PDF- header)")) :=
  ⟨(load_pdf_binary_bytes _).1 (by decide), (load_pdf_binary_bytes _).2 (by decide)⟩
